import Mathlib

/-!
Verification of the sv2-ui dashboard's client-side data logic.

Shallow embedding of:
* the rolling sample buffers built by `useHashrateHistory` / `useShareHistory`
  (`src/hooks/useHashrateHistory.ts` and the alternate revision of the same
  hook that carries an `appendSample` callback with a dedupe guard),
* the fetch wrapper `apiFetch` and the per-resource retry predicates,
* the endpoint resolution `getApiBase`,
* the dashboard's derived totals (`shareStats`, `sv1TotalHashrate`),
* the persisted UI preference loader `loadConfig`.

JS numbers are embedded as `ℚ` (hashrates) or `ℤ`/`ℕ` (counters, timestamps);
`undefined`/`null` become `Option`; thrown errors become `Except.error`.
-/

namespace Sv2Ui

/-- The cap `MAX_HISTORY_POINTS = 60`: keep last 60 data points. -/
def MAX_HISTORY_POINTS : Nat := 60

/-- The cadence `SAMPLE_INTERVAL_MS = 5000`: sample every 5 seconds. -/
def SAMPLE_INTERVAL_MS : Nat := 5000

/-- JS `l.slice(-n)`: the suffix of `l` of length `min n l.length`. -/
def takeRight (n : Nat) (l : List α) : List α := l.drop (l.length - n)

/-- The shared cap logic of every `setHistory` updater in the hooks:
`const updated = [...prev, newPoint]; return updated.length > MAX_HISTORY_POINTS
? updated.slice(-MAX_HISTORY_POINTS) : updated;`. -/
def appendCapped (prev : List α) (pt : α) : List α :=
  let updated := prev ++ [pt]
  if MAX_HISTORY_POINTS < updated.length then takeRight MAX_HISTORY_POINTS updated
  else updated

/-- A point of the hashrate history (`HashrateDataPoint`, minus the derived
display string `time`). -/
structure HashrateDataPoint where
  timestamp : Nat
  hashrate : ℚ
deriving DecidableEq, Repr

/-- The body of `sample()` in `useHashrateHistory`
(`src/hooks/useHashrateHistory.ts`): read the mutable ref; if
`undefined`/`null` do nothing, else append `(now, value)` with the cap. -/
def sample (history : List HashrateDataPoint) (ref : Option ℚ) (now : Nat) :
    List HashrateDataPoint :=
  match ref with
  | none => history
  | some value => appendCapped history ⟨now, value⟩

/-- Running `sample` over a whole sequence of ticks, starting from the
initial empty history. Each tick supplies the ref's value and `Date.now()`. -/
def runSample (inputs : List (Option ℚ × Nat)) : List HashrateDataPoint :=
  inputs.foldl (fun h i => sample h i.1 i.2) []

/-- State of the alternate `useHashrateHistory` revision: the history list plus
the `lastSampleTime` ref used by the dedupe guard of `appendSample`. -/
structure HistState where
  history : List HashrateDataPoint
  lastSampleTime : Nat
deriving DecidableEq, Repr

/-- Callback `appendSample` from the alternate hook revision: skip when
`lastSampleTime.current && timestamp - lastSampleTime.current <
SAMPLE_INTERVAL_MS - 250`, otherwise record `timestamp` and append the capped
point. (JS truthiness of `lastSampleTime.current` is `≠ 0`; a JS negative
difference and the truncated `Nat` difference fall in the same branch.) -/
def appendSample (st : HistState) (timestamp : Nat) (hashrate : ℚ) : HistState :=
  if st.lastSampleTime ≠ 0 ∧ timestamp - st.lastSampleTime < SAMPLE_INTERVAL_MS - 250 then
    st
  else
    { history := appendCapped st.history ⟨timestamp, hashrate⟩
      lastSampleTime := timestamp }

/-- One interval tick of the alternate hook: read `latestHashrateRef`; if
`null` do nothing, else `appendSample(Date.now(), hashrate)`. -/
def intervalTick (st : HistState) (ref : Option ℚ) (now : Nat) : HistState :=
  match ref with
  | none => st
  | some hashrate => appendSample st now hashrate

/-- Running the alternate hook's ticks from its initial state
(`history = []`, `lastSampleTime = 0`). -/
def runAppendSample (inputs : List (Nat × ℚ)) : HistState :=
  inputs.foldl (fun st i => appendSample st i.1 i.2) ⟨[], 0⟩

/-- A point of the share history (`ShareDataPoint`, minus the display string).
The delta fields are `ℤ` so that a decreasing upstream counter is expressible. -/
structure ShareDataPoint where
  timestamp : Nat
  accepted : ℤ
  submitted : ℤ
deriving DecidableEq, Repr

/-- State of `useShareHistory`: the history plus the three refs. -/
structure ShareState where
  history : List ShareDataPoint
  lastSampleTime : Nat
  lastAccepted : ℤ
  lastSubmitted : ℤ
deriving DecidableEq, Repr

/-- One run of the `useShareHistory` effect body with inputs `accepted`,
`submitted` (each possibly `undefined`) at clock `now`:
bail out on `undefined` inputs or when `now - lastSampleTime <
SAMPLE_INTERVAL_MS`; otherwise update the refs, compute
`Math.max(0, new - last)` deltas, and record a capped point only when
`history.length > 0 || deltaSubmitted > 0`. -/
def shareStep (st : ShareState) (accepted submitted : Option ℤ) (now : Nat) :
    ShareState :=
  match accepted, submitted with
  | some a, some s =>
    if now - st.lastSampleTime < SAMPLE_INTERVAL_MS then st
    else
      let deltaAccepted := max 0 (a - st.lastAccepted)
      let deltaSubmitted := max 0 (s - st.lastSubmitted)
      let st' : ShareState :=
        { st with lastSampleTime := now, lastAccepted := a, lastSubmitted := s }
      if 0 < st.history.length ∨ 0 < deltaSubmitted then
        { st' with
            history := appendCapped st.history ⟨now, deltaAccepted, deltaSubmitted⟩ }
      else st'
  | _, _ => st

/-- Initial `useShareHistory` state: empty history, refs zeroed. -/
def shareInit : ShareState := ⟨[], 0, 0, 0⟩

/-- Running `useShareHistory` over a sequence of effect firings. -/
def runShare (inputs : List (Option ℤ × Option ℤ × Nat)) : ShareState :=
  inputs.foldl (fun st i => shareStep st i.1 i.2.1 i.2.2) shareInit

/-! ### List helper lemmas for the capped buffer -/

theorem takeRight_length (n : Nat) (l : List α) :
    (takeRight n l).length = min n l.length := by
  show (l.drop (l.length - n)).length = min n l.length
  rw [List.length_drop]
  omega

theorem takeRight_of_le {n : Nat} {l : List α} (h : l.length ≤ n) :
    takeRight n l = l := by
  show l.drop (l.length - n) = l
  have h0 : l.length - n = 0 := by omega
  rw [h0, List.drop_zero]

theorem takeRight_sublist (n : Nat) (l : List α) : (takeRight n l).Sublist l :=
  List.drop_sublist _ l

theorem appendCapped_ite (l : List α) (p : α) :
    appendCapped l p =
      if MAX_HISTORY_POINTS < (l ++ [p]).length then
        takeRight MAX_HISTORY_POINTS (l ++ [p])
      else l ++ [p] := rfl

theorem appendCapped_eq_takeRight (l : List α) (p : α) :
    appendCapped l p = takeRight MAX_HISTORY_POINTS (l ++ [p]) := by
  rw [appendCapped_ite]
  by_cases h : MAX_HISTORY_POINTS < (l ++ [p]).length
  · rw [if_pos h]
  · rw [if_neg h]
    exact (takeRight_of_le (by omega)).symm

theorem appendCapped_length (l : List α) (p : α) :
    (appendCapped l p).length = min (l.length + 1) MAX_HISTORY_POINTS := by
  rw [appendCapped_eq_takeRight, takeRight_length]
  simp
  omega

theorem appendCapped_sublist (l : List α) (p : α) :
    (appendCapped l p).Sublist (l ++ [p]) := by
  rw [appendCapped_eq_takeRight]; exact takeRight_sublist _ _

theorem mem_appendCapped {l : List α} {p q : α} (h : q ∈ appendCapped l p) :
    q ∈ l ∨ q = p := by
  have := (appendCapped_sublist l p).subset h
  simpa using this

theorem takeRight_append_singleton (n : Nat) (hn : 0 < n) (l : List α) (p : α) :
    takeRight n (takeRight n l ++ [p]) = takeRight n (l ++ [p]) := by
  by_cases h : l.length ≤ n
  · rw [takeRight_of_le h]
  · have hlen : (takeRight n l).length = n := by rw [takeRight_length]; omega
    have h2 : (1 : Nat) ≤ (takeRight n l).length := by omega
    have key1 : takeRight n (takeRight n l ++ [p]) = (takeRight n l).drop 1 ++ [p] := by
      show (takeRight n l ++ [p]).drop ((takeRight n l ++ [p]).length - n) = _
      simp only [List.length_append, List.length_singleton, hlen,
        Nat.add_sub_cancel_left, Nat.add_sub_cancel]
      rw [List.drop_append_of_le_length h2]
    have key2 : takeRight n (l ++ [p]) = l.drop (l.length + 1 - n) ++ [p] := by
      show (l ++ [p]).drop ((l ++ [p]).length - n) = _
      simp only [List.length_append, List.length_singleton]
      rw [List.drop_append_of_le_length (by omega : l.length + 1 - n ≤ l.length)]
    rw [key1, key2]
    congr 1
    show (l.drop (l.length - n)).drop 1 = _
    rw [List.drop_drop]
    congr 1
    omega

/-! ### Buffer length invariant (C1) -/

theorem sample_length_le {h : List HashrateDataPoint}
    (hh : h.length ≤ MAX_HISTORY_POINTS) (ref : Option ℚ) (now : Nat) :
    (sample h ref now).length ≤ MAX_HISTORY_POINTS := by
  cases ref with
  | none => exact hh
  | some v =>
    show (appendCapped h _).length ≤ MAX_HISTORY_POINTS
    rw [appendCapped_length]; omega

theorem appendSample_length_le {st : HistState}
    (hst : st.history.length ≤ MAX_HISTORY_POINTS) (t : Nat) (v : ℚ) :
    (appendSample st t v).history.length ≤ MAX_HISTORY_POINTS := by
  unfold appendSample
  split
  · exact hst
  · show (appendCapped st.history _).length ≤ MAX_HISTORY_POINTS
    rw [appendCapped_length]; omega

theorem shareStep_length_le {st : ShareState}
    (hst : st.history.length ≤ MAX_HISTORY_POINTS)
    (a s : Option ℤ) (now : Nat) :
    (shareStep st a s now).history.length ≤ MAX_HISTORY_POINTS := by
  unfold shareStep
  cases a with
  | none => exact hst
  | some a' =>
    cases s with
    | none => exact hst
    | some s' =>
      dsimp only
      split
      · exact hst
      · split
        · show (appendCapped st.history _).length ≤ MAX_HISTORY_POINTS
          rw [appendCapped_length]; omega
        · exact hst

theorem runSample_length_aux (inputs : List (Option ℚ × Nat))
    (h : List HashrateDataPoint) (hh : h.length ≤ MAX_HISTORY_POINTS) :
    (inputs.foldl (fun h i => sample h i.1 i.2) h).length ≤ MAX_HISTORY_POINTS := by
  induction inputs generalizing h with
  | nil => exact hh
  | cons i rest ih => exact ih _ (sample_length_le hh i.1 i.2)

theorem runAppendSample_length_aux (inputs : List (Nat × ℚ)) (st : HistState)
    (hst : st.history.length ≤ MAX_HISTORY_POINTS) :
    (inputs.foldl (fun st i => appendSample st i.1 i.2) st).history.length ≤
      MAX_HISTORY_POINTS := by
  induction inputs generalizing st with
  | nil => exact hst
  | cons i rest ih => exact ih _ (appendSample_length_le hst i.1 i.2)

theorem runShare_length_aux (inputs : List (Option ℤ × Option ℤ × Nat))
    (st : ShareState) (hst : st.history.length ≤ MAX_HISTORY_POINTS) :
    (inputs.foldl (fun st i => shareStep st i.1 i.2.1 i.2.2) st).history.length ≤
      MAX_HISTORY_POINTS := by
  induction inputs generalizing st with
  | nil => exact hst
  | cons i rest ih => exact ih _ (shareStep_length_le hst i.1 i.2.1 i.2.2)

/-- C1: for every sequence of appended samples, the rolling sample buffer of
`useHashrateHistory` (both revisions) and of `useShareHistory` holds at most
`MAX_HISTORY_POINTS = 60` entries after every append. -/
theorem history_length_le_cap (hIn : List (Option ℚ × Nat))
    (aIn : List (Nat × ℚ)) (sIn : List (Option ℤ × Option ℤ × Nat)) :
    (runSample hIn).length ≤ MAX_HISTORY_POINTS ∧
    (runAppendSample aIn).history.length ≤ MAX_HISTORY_POINTS ∧
    (runShare sIn).history.length ≤ MAX_HISTORY_POINTS :=
  ⟨runSample_length_aux hIn [] (by simp [MAX_HISTORY_POINTS]),
   runAppendSample_length_aux aIn ⟨[], 0⟩ (by simp [MAX_HISTORY_POINTS]),
   runShare_length_aux sIn shareInit (by simp [shareInit, MAX_HISTORY_POINTS])⟩

/-! ### Suffix semantics of the capped append (C3) -/

theorem foldl_appendCapped_eq_takeRight (pts : List α) :
    pts.foldl (fun l p => appendCapped l p) [] =
      takeRight MAX_HISTORY_POINTS pts := by
  induction pts using List.reverseRecOn with
  | nil => rfl
  | append_singleton l p ih =>
    rw [List.foldl_append, List.foldl_cons, List.foldl_nil, ih,
      appendCapped_eq_takeRight,
      takeRight_append_singleton MAX_HISTORY_POINTS (by decide)]

/-- C3: after any sequence of appends, the buffer is exactly the suffix of the
full appended sequence of length `min (number of appends) MAX_HISTORY_POINTS`:
the oldest entries are the ones evicted, and append order is preserved. -/
theorem appendCapped_run_is_recent_suffix (pts : List HashrateDataPoint) :
    pts.foldl (fun l p => appendCapped l p) [] = takeRight MAX_HISTORY_POINTS pts ∧
    (pts.foldl (fun l p => appendCapped l p) []).length =
      min pts.length MAX_HISTORY_POINTS := by
  refine ⟨foldl_appendCapped_eq_takeRight pts, ?_⟩
  rw [foldl_appendCapped_eq_takeRight, takeRight_length]
  omega

/-! ### Timestamp monotonicity (C2) -/

theorem appendCapped_pairwise {h : List HashrateDataPoint} {t : Nat} {v : ℚ}
    (hs : (h.map HashrateDataPoint.timestamp).Pairwise (· ≤ ·))
    (hb : ∀ p ∈ h, p.timestamp ≤ t) :
    ((appendCapped h ⟨t, v⟩).map HashrateDataPoint.timestamp).Pairwise (· ≤ ·) ∧
    ∀ p ∈ appendCapped h ⟨t, v⟩, p.timestamp ≤ t := by
  constructor
  · have hall : ((h ++ [(⟨t, v⟩ : HashrateDataPoint)]).map
        HashrateDataPoint.timestamp).Pairwise (· ≤ ·) := by
      rw [List.map_append, List.pairwise_append]
      refine ⟨hs, List.pairwise_singleton _ _, ?_⟩
      intro x hx y hy
      simp only [List.map_singleton, List.mem_singleton] at hy
      subst hy
      obtain ⟨p, hp, rfl⟩ := List.mem_map.mp hx
      exact hb p hp
    exact hall.sublist ((appendCapped_sublist h ⟨t, v⟩).map _)
  · intro p hp
    rcases mem_appendCapped hp with h1 | h1
    · exact hb p h1
    · subst h1; rfl

theorem chain'_cons_zero {l : List Nat} (h : List.Chain' (· ≤ ·) l) :
    List.Chain' (· ≤ ·) (0 :: l) := by
  cases l with
  | nil => exact List.chain'_singleton 0
  | cons a t => exact List.chain'_cons.mpr ⟨Nat.zero_le a, h⟩

theorem runSample_sorted_aux (inputs : List (Option ℚ × Nat))
    (h : List HashrateDataPoint) (b : Nat)
    (hs : (h.map HashrateDataPoint.timestamp).Pairwise (· ≤ ·))
    (hb : ∀ p ∈ h, p.timestamp ≤ b)
    (hc : List.Chain' (· ≤ ·) (b :: inputs.map Prod.snd)) :
    ((inputs.foldl (fun h i => sample h i.1 i.2) h).map
      HashrateDataPoint.timestamp).Pairwise (· ≤ ·) := by
  induction inputs generalizing h b with
  | nil => exact hs
  | cons i rest ih =>
    rw [List.map_cons] at hc
    have hbt : b ≤ i.2 := (List.chain'_cons.mp hc).1
    have hc' : List.Chain' (· ≤ ·) (i.2 :: rest.map Prod.snd) :=
      (List.chain'_cons.mp hc).2
    rw [List.foldl_cons]
    cases hr : i.1 with
    | none =>
      exact ih h i.2 hs (fun p hp => le_trans (hb p hp) hbt) hc'
    | some v =>
      have hap := appendCapped_pairwise hs (fun p hp => le_trans (hb p hp) hbt)
        (t := i.2) (v := v)
      exact ih _ i.2 hap.1 hap.2 hc'

theorem runAppendSample_sorted_aux (inputs : List (Nat × ℚ)) (st : HistState)
    (b : Nat)
    (hs : (st.history.map HashrateDataPoint.timestamp).Pairwise (· ≤ ·))
    (hb : ∀ p ∈ st.history, p.timestamp ≤ b)
    (hc : List.Chain' (· ≤ ·) (b :: inputs.map Prod.fst)) :
    (((inputs.foldl (fun st i => appendSample st i.1 i.2) st).history).map
      HashrateDataPoint.timestamp).Pairwise (· ≤ ·) := by
  induction inputs generalizing st b with
  | nil => exact hs
  | cons i rest ih =>
    rw [List.map_cons] at hc
    have hbt : b ≤ i.1 := (List.chain'_cons.mp hc).1
    have hc' : List.Chain' (· ≤ ·) (i.1 :: rest.map Prod.fst) :=
      (List.chain'_cons.mp hc).2
    rw [List.foldl_cons]
    unfold appendSample
    split
    · exact ih st i.1 hs (fun p hp => le_trans (hb p hp) hbt) hc'
    · have hap := appendCapped_pairwise hs (fun p hp => le_trans (hb p hp) hbt)
        (t := i.1) (v := i.2)
      exact ih _ i.1 hap.1 hap.2 hc'

/-- C2: assuming the sampled clock is non-decreasing across appends, the
timestamps stored in the rolling buffer are monotonically non-decreasing,
for both revisions of the hook (`sample` and `appendSample`). -/
theorem history_timestamps_monotone (hIn : List (Option ℚ × Nat))
    (aIn : List (Nat × ℚ))
    (h1 : List.Chain' (· ≤ ·) (hIn.map Prod.snd))
    (h2 : List.Chain' (· ≤ ·) (aIn.map Prod.fst)) :
    List.Chain' (· ≤ ·) ((runSample hIn).map HashrateDataPoint.timestamp) ∧
    List.Chain' (· ≤ ·)
      ((runAppendSample aIn).history.map HashrateDataPoint.timestamp) := by
  constructor
  · exact (runSample_sorted_aux hIn [] 0 (by simp) (by simp)
      (chain'_cons_zero h1)).chain'
  · exact (runAppendSample_sorted_aux aIn ⟨[], 0⟩ 0 (by simp) (by simp)
      (chain'_cons_zero h2)).chain'

/-- Witness for C2 at a concrete non-decreasing tick sequence. -/
theorem history_timestamps_monotone_witness :
    List.Chain' (· ≤ ·)
      ((runSample [(some 1, 10), (none, 20), (some 2, 30)]).map
        HashrateDataPoint.timestamp) ∧
    List.Chain' (· ≤ ·)
      ((runAppendSample [(10, 1), (6000, 2), (6100, 3)]).history.map
        HashrateDataPoint.timestamp) :=
  history_timestamps_monotone [(some 1, 10), (none, 20), (some 2, 30)]
    [(10, 1), (6000, 2), (6100, 3)]
    (by simp [List.chain'_cons, List.chain'_singleton])
    (by simp [List.chain'_cons, List.chain'_singleton])

/-! ### Derived dashboard totals (C5), from `UnifiedDashboard.tsx` -/

/-- A server channel record, restricted to the fields the derived totals
read (`shares_accepted`; `last_share_sequence_number` feeds the `submitted`
maximum, not claimed here). -/
structure ServerChannel where
  shares_accepted : Nat
  last_share_sequence_number : Nat
deriving DecidableEq, Repr

/-- The `serverChannels` payload: extended and standard channel lists. -/
structure ServerChannelsResponse where
  extended_channels : List ServerChannel
  standard_channels : List ServerChannel
deriving DecidableEq, Repr

/-- An SV1 client record restricted to `hashrate : number | null`. -/
structure Sv1ClientInfo where
  hashrate : Option ℚ
deriving DecidableEq, Repr

/-- `sv1TotalHashrate`: `allClients.reduce((sum, c) => sum + (c.hashrate || 0), 0)`.
(`c.hashrate || 0` maps `null` to `0`; it also maps `0` to `0`, which
`Option.getD 0` reproduces.) -/
def sv1TotalHashrate (allClients : List Sv1ClientInfo) : ℚ :=
  allClients.foldl (fun sum c => sum + c.hashrate.getD 0) 0

/-- The `accepted` total of `shareStats`:
`extended_channels.reduce((sum, ch) => sum + ch.shares_accepted, 0)` plus the
same reduction over `standard_channels`. -/
def shareStatsAccepted (sc : ServerChannelsResponse) : Nat :=
  sc.extended_channels.foldl (fun sum ch => sum + ch.shares_accepted) 0 +
  sc.standard_channels.foldl (fun sum ch => sum + ch.shares_accepted) 0

theorem foldl_add_eq {M : Type} [AddCommMonoid M] (f : α → M) (l : List α)
    (a : M) : l.foldl (fun acc c => acc + f c) a = a + (l.map f).sum := by
  induction l generalizing a with
  | nil => simp
  | cons hd tl ih =>
    rw [List.foldl_cons, ih, List.map_cons, List.sum_cons, add_assoc]

/-- C5: the dashboard's derived totals — accepted shares summed over extended
and standard channels, and the SV1 hashrate sum — are invariant under any
permutation of the input lists. -/
theorem derived_totals_perm_invariant (ext ext' std std' : List ServerChannel)
    (cls cls' : List Sv1ClientInfo)
    (hext : ext.Perm ext') (hstd : std.Perm std') (hcls : cls.Perm cls') :
    shareStatsAccepted ⟨ext, std⟩ = shareStatsAccepted ⟨ext', std'⟩ ∧
    sv1TotalHashrate cls = sv1TotalHashrate cls' := by
  constructor
  · show ext.foldl _ 0 + std.foldl _ 0 = ext'.foldl _ 0 + std'.foldl _ 0
    rw [foldl_add_eq, foldl_add_eq, foldl_add_eq, foldl_add_eq,
      (hext.map ServerChannel.shares_accepted).sum_eq,
      (hstd.map ServerChannel.shares_accepted).sum_eq]
  · show cls.foldl _ 0 = cls'.foldl _ 0
    rw [foldl_add_eq, foldl_add_eq,
      (hcls.map (fun c => c.hashrate.getD 0)).sum_eq]

/-- Witness for C5: a concrete swap of two channels and of two clients. -/
theorem derived_totals_perm_invariant_witness :
    shareStatsAccepted ⟨[⟨3, 1⟩, ⟨5, 2⟩], [⟨7, 4⟩]⟩ =
      shareStatsAccepted ⟨[⟨5, 2⟩, ⟨3, 1⟩], [⟨7, 4⟩]⟩ ∧
    sv1TotalHashrate [⟨some 2⟩, ⟨none⟩] = sv1TotalHashrate [⟨none⟩, ⟨some 2⟩] :=
  derived_totals_perm_invariant _ _ _ _ _ _
    (List.Perm.swap _ _ _) (List.Perm.refl _) (List.Perm.swap _ _ _)

/-! ### Sampling skips undefined values (C7) -/

theorem appendCapped_getLast (l : List α) (p : α) :
    (appendCapped l p).getLast? = some p := by
  rw [appendCapped_eq_takeRight]
  show ((l ++ [p]).drop ((l ++ [p]).length - MAX_HISTORY_POINTS)).getLast? = some p
  by_cases h : l.length + 1 ≤ MAX_HISTORY_POINTS
  · have h0 : (l ++ [p]).length - MAX_HISTORY_POINTS = 0 := by
      simp only [List.length_append, List.length_singleton]; omega
    rw [h0, List.drop_zero, List.getLast?_concat]
  · have hM : MAX_HISTORY_POINTS = 60 := rfl
    have hle : (l ++ [p]).length - MAX_HISTORY_POINTS ≤ l.length := by
      simp only [List.length_append, List.length_singleton]; omega
    rw [List.drop_append_of_le_length hle, List.getLast?_concat]

/-- C7: when the tracked signal is undefined at a sampling tick, the buffer is
left unchanged (in both hook revisions); when it is defined, exactly the
`(now, value)` sample is appended (it becomes the newest buffer entry). -/
theorem sample_skips_undefined (h : List HashrateDataPoint) (st : HistState)
    (now : Nat) (v : ℚ) :
    sample h none now = h ∧
    intervalTick st none now = st ∧
    sample h (some v) now = appendCapped h ⟨now, v⟩ ∧
    (sample h (some v) now).getLast? = some ⟨now, v⟩ ∧
    intervalTick st (some v) now = appendSample st now v :=
  ⟨rfl, rfl, rfl, appendCapped_getLast h ⟨now, v⟩, rfl⟩

/-! ### The fetch wrapper `apiFetch` (C8) and the retry predicates (C4) -/

/-- The message `` `HTTP ${response.status}` ``. -/
def httpMsg (status : Nat) : String := "HTTP " ++ toString status

/-- The error message thrown by `apiFetch` on a non-2xx response.
The error body is `none` when `response.json()` rejects, in which case the
catch handler supplies a fallback object whose `error` field reads Unknown
error; it is `some e` when it parses, `e` being the `error` field (absent = `none`).
`errorData.error || httpMsg` treats an absent or empty `error` field as falsy. -/
def errMessage (status : Nat) (body : Option (Option String)) : String :=
  let errorField : Option String :=
    match body with
    | none => some "Unknown error"
    | some e => e
  match errorField with
  | some s => if s = "" then httpMsg status else s
  | none => httpMsg status

/-- An HTTP response as `apiFetch` observes it: status, the parse outcome of
the error body, and the success payload. -/
structure ApiResponse (α : Type) where
  status : Nat
  errorBody : Option (Option String)
  payload : α

/-- JS `response.ok`: status in the inclusive range 200–299. -/
def respOk (status : Nat) : Bool := decide (200 ≤ status ∧ status < 300)

/-- Wrapper `apiFetch`: return the payload on an ok response, otherwise throw
`new Error(errorData.error || httpMsg)`. -/
def apiFetch (r : ApiResponse α) : Except String α :=
  if respOk r.status then Except.ok r.payload
  else Except.error (errMessage r.status r.errorBody)

/-- C8: on every non-2xx response `apiFetch` raises and never returns a value;
the message is the body's non-empty `error` field when the body parses, `HTTP
<status>` when the body parses without a non-empty `error` field, and `Unknown
error` when the error body fails to parse. -/
theorem apiFetch_nonOk_error (status : Nat) (body : Option (Option String))
    (p : Nat) (h : ¬(200 ≤ status ∧ status < 300)) :
    apiFetch ⟨status, body, p⟩ = Except.error (errMessage status body) ∧
    (∀ s, body = some (some s) → s ≠ "" → errMessage status body = s) ∧
    (body = some none → errMessage status body = httpMsg status) ∧
    (body = some (some "") → errMessage status body = httpMsg status) ∧
    (body = none → errMessage status body = "Unknown error") := by
  refine ⟨?_, ?_, ?_, ?_, ?_⟩
  · have hok : respOk status = false := by
      unfold respOk; exact decide_eq_false h
    unfold apiFetch
    rw [hok]
    rfl
  · intro s hs hne
    subst hs
    show (if s = "" then httpMsg status else s) = s
    rw [if_neg hne]
  · intro hb; subst hb; rfl
  · intro hb; subst hb; rfl
  · intro hb; subst hb; rfl

/-- Witness for C8 at a 404 with an unparseable body. -/
theorem apiFetch_nonOk_error_witness :
    apiFetch ⟨404, none, (0 : Nat)⟩ = Except.error (errMessage 404 none) ∧
    (∀ s, (none : Option (Option String)) = some (some s) → s ≠ "" →
      errMessage 404 none = s) ∧
    ((none : Option (Option String)) = some none →
      errMessage 404 none = httpMsg 404) ∧
    ((none : Option (Option String)) = some (some "") →
      errMessage 404 none = httpMsg 404) ∧
    ((none : Option (Option String)) = none →
      errMessage 404 none = "Unknown error") :=
  apiFetch_nonOk_error 404 none 0 (by decide)

/-- Substring search on character lists: does `needle` start at some position
of the haystack? -/
def subSearch (needle : List Char) : List Char → Bool
  | [] => needle.isEmpty
  | c :: rest => needle.isPrefixOf (c :: rest) || subSearch needle rest

/-- JS `String.prototype.includes`. -/
def strIncludes (s sub : String) : Bool := subSearch sub.toList s.toList

/-- The `retry` predicate passed to the optional-resource queries (`useServer`,
`useClients`, `useSv1Clients`): stop when the error message contains
`not available`, otherwise retry while `failureCount < 3`. -/
def retryPredicate (failureCount : Nat) (errorMessage : String) : Bool :=
  if strIncludes errorMessage "not available" then false
  else decide (failureCount < 3)

/-- C4 counterexample: a 404 whose error body fails to parse produces the
message `Unknown error`, and the retry predicate keeps retrying it — the
predicate never inspects the 404 status itself. -/
theorem retry_on_404_counterexample :
    retryPredicate 0 (errMessage 404 none) = true := by decide

/-- C4 (amended): the stop-retrying decision is keyed on the error message:
retrying stops exactly when the message contains the substring
`not available` (how the API signals an unavailable optional resource on 404)
or three failures have occurred; each resource's query has its own
independent predicate, so one resource stopping does not affect the others. -/
theorem retry_stops_iff_not_available (failureCount : Nat) (msg : String) :
    retryPredicate failureCount msg = false ↔
      (strIncludes msg "not available" = true ∨ 3 ≤ failureCount) := by
  unfold retryPredicate
  by_cases h : strIncludes msg "not available" = true
  · simp [h]
  · simp only [h, if_neg, Bool.false_eq_true, false_or, decide_eq_false_iff_not,
      Bool.not_eq_true]
    constructor
    · intro hd
      have := of_decide_eq_false hd
      omega
    · intro hd
      apply decide_eq_false
      omega

/-- Witness for C4's amended theorem: the predicate halts on the
`not available` message and keeps retrying a plain network error. -/
theorem retry_stops_iff_not_available_witness :
    retryPredicate 1 "Server monitoring not available" = false ∧
    retryPredicate 1 "Failed to fetch" ≠ false :=
  ⟨(retry_stops_iff_not_available 1 "Server monitoring not available").mpr
      (Or.inl (by decide)),
   fun hc =>
     by simpa using
       ((retry_stops_iff_not_available 1 "Failed to fetch").mp hc).resolve_left
         (by decide)⟩

/-! ### Endpoint base URL resolution (C6) -/

/-- Constant `EXTERNAL_ENDPOINTS.jdc`. -/
def EXTERNAL_ENDPOINTS_jdc : String := "http://localhost:9091/api/v1"

/-- Constant `EXTERNAL_ENDPOINTS.translator`. -/
def EXTERNAL_ENDPOINTS_translator : String := "http://localhost:9092/api/v1"

/-- The `service` argument of `getApiBase`/`apiFetch`. -/
inductive Service
  | jdc
  | translator
deriving DecidableEq, Repr

/-- The URL query parameters `getApiBase` reads from
`window.location.search`. -/
structure UrlParams where
  mode : Option String
  jdc_url : Option String
  translator_url : Option String
deriving DecidableEq, Repr

/-- The environment configuration declared in `ImportMetaEnv`
(`VITE_JDC_URL` / `VITE_TRANSLATOR_URL`). -/
structure EnvConfig where
  VITE_JDC_URL : Option String
  VITE_TRANSLATOR_URL : Option String
deriving DecidableEq, Repr

/-- JS `x || d` on a string-or-null: the default when `x` is `null` or
the empty string. -/
def orDefault (x : Option String) (d : String) : String :=
  match x with
  | none => d
  | some s => if s = "" then d else s

/-- Resolver `getApiBase` from the source: in `miner-stack` mode with a service given,
`urlParams.get('jdc_url') || EXTERNAL_ENDPOINTS.jdc` (resp. translator),
otherwise the relative `'/api/v1'`. The function reads only
`window.location.search`; it never reads `import.meta.env`. -/
def getApiBase (params : UrlParams) (service : Option Service) : String :=
  match service with
  | some s =>
    if params.mode = some "miner-stack" then
      match s with
      | Service.jdc => orDefault params.jdc_url EXTERNAL_ENDPOINTS_jdc
      | Service.translator =>
          orDefault params.translator_url EXTERNAL_ENDPOINTS_translator
    else "/api/v1"
  | none => "/api/v1"

/-- Following the spec's words (§6, claim C6): resolution order URL query
parameter, then environment configuration, then hardcoded local default.
This is the claimed behaviour, to be compared with `getApiBase`. -/
def specResolveEndpointBase (params : UrlParams) (env : EnvConfig)
    (s : Service) : String :=
  match s with
  | Service.jdc =>
      orDefault params.jdc_url (orDefault env.VITE_JDC_URL EXTERNAL_ENDPOINTS_jdc)
  | Service.translator =>
      orDefault params.translator_url
        (orDefault env.VITE_TRANSLATOR_URL EXTERNAL_ENDPOINTS_translator)

/-- C6 counterexample: with no URL query parameter set and `VITE_JDC_URL`
configured, `getApiBase` returns the hardcoded default, not the environment
value — the claimed middle tier of the resolution order does not exist in
`getApiBase`. -/
theorem getApiBase_env_counterexample :
    getApiBase ⟨some "miner-stack", none, none⟩ (some Service.jdc) ≠
      specResolveEndpointBase ⟨some "miner-stack", none, none⟩
        ⟨some "http://envhost:9091/api/v1", none⟩ Service.jdc := by
  decide

/-- C6 (amended): in `miner-stack` mode with a service given, the base URL is
the service's URL query parameter when present and non-empty, else the
hardcoded local default; environment configuration is never consulted. In any
other mode, or with no service, the relative default `/api/v1` is used. -/
theorem getApiBase_resolution (params : UrlParams) (s : Service)
    (u : String) :
    (params.mode = some "miner-stack" →
      getApiBase params (some Service.jdc) =
        orDefault params.jdc_url EXTERNAL_ENDPOINTS_jdc ∧
      getApiBase params (some Service.translator) =
        orDefault params.translator_url EXTERNAL_ENDPOINTS_translator ∧
      (params.jdc_url = some u → u ≠ "" →
        getApiBase params (some Service.jdc) = u) ∧
      (params.jdc_url = none →
        getApiBase params (some Service.jdc) = EXTERNAL_ENDPOINTS_jdc)) ∧
    (params.mode ≠ some "miner-stack" → getApiBase params (some s) = "/api/v1") ∧
    getApiBase params none = "/api/v1" := by
  refine ⟨fun hm => ⟨?_, ?_, fun hq hu => ?_, fun hq => ?_⟩, fun hm => ?_, rfl⟩
  · show (if params.mode = some "miner-stack" then _ else _) = _
    rw [if_pos hm]
  · show (if params.mode = some "miner-stack" then _ else _) = _
    rw [if_pos hm]
  · show (if params.mode = some "miner-stack" then _ else _) = _
    rw [if_pos hm]
    show orDefault params.jdc_url EXTERNAL_ENDPOINTS_jdc = u
    rw [hq]
    show (if u = "" then _ else u) = u
    rw [if_neg hu]
  · show (if params.mode = some "miner-stack" then _ else _) = _
    rw [if_pos hm]
    show orDefault params.jdc_url EXTERNAL_ENDPOINTS_jdc = _
    rw [hq]
    rfl
  · cases s with
    | jdc =>
      show (if params.mode = some "miner-stack" then _ else _) = _
      rw [if_neg hm]
    | translator =>
      show (if params.mode = some "miner-stack" then _ else _) = _
      rw [if_neg hm]

/-- Witness for C6's amended theorem at concrete query parameters. -/
theorem getApiBase_resolution_witness :
    getApiBase ⟨some "miner-stack", some "http://h:1/api/v1", none⟩
        (some Service.jdc) = "http://h:1/api/v1" ∧
    getApiBase ⟨none, some "http://h:1/api/v1", none⟩ (some Service.jdc) =
      "/api/v1" :=
  ⟨((getApiBase_resolution ⟨some "miner-stack", some "http://h:1/api/v1", none⟩
      Service.jdc "http://h:1/api/v1").1 rfl).2.2.1 rfl (by decide),
   (getApiBase_resolution ⟨none, some "http://h:1/api/v1", none⟩ Service.jdc
      "http://h:1/api/v1").2.1 (by decide)⟩

/-! ### Share history deltas (C9) -/

theorem shareStep_preserves_nonneg {st : ShareState}
    (h : ∀ p ∈ st.history, 0 ≤ p.accepted ∧ 0 ≤ p.submitted)
    (a s : Option ℤ) (now : Nat) :
    ∀ p ∈ (shareStep st a s now).history, 0 ≤ p.accepted ∧ 0 ≤ p.submitted := by
  unfold shareStep
  cases a with
  | none => exact h
  | some a' =>
    cases s with
    | none => exact h
    | some s' =>
      dsimp only
      split
      · exact h
      · split
        · intro p hp
          rcases mem_appendCapped hp with h1 | h1
          · exact h p h1
          · subst h1
            exact ⟨le_max_left 0 _, le_max_left 0 _⟩
        · exact h

theorem runShare_nonneg_aux (inputs : List (Option ℤ × Option ℤ × Nat))
    (st : ShareState)
    (h : ∀ p ∈ st.history, 0 ≤ p.accepted ∧ 0 ≤ p.submitted) :
    ∀ p ∈ (inputs.foldl (fun st i => shareStep st i.1 i.2.1 i.2.2) st).history,
      0 ≤ p.accepted ∧ 0 ≤ p.submitted := by
  induction inputs generalizing st with
  | nil => exact h
  | cons i rest ih =>
    exact ih _ (shareStep_preserves_nonneg h i.1 i.2.1 i.2.2)

/-- C9: every point recorded by `useShareHistory` carries the clamped deltas
`max 0 (new - previous)` — hence non-negative fields even if the upstream
cumulative counters decrease — and from an empty history a point is recorded
only with a strictly positive submitted delta. -/
theorem share_history_deltas (inputs : List (Option ℤ × Option ℤ × Nat)) :
    (∀ p ∈ (runShare inputs).history, 0 ≤ p.accepted ∧ 0 ≤ p.submitted) ∧
    (∀ (st : ShareState) (a s : ℤ) (now : Nat),
      (∀ p ∈ (shareStep st (some a) (some s) now).history,
        p ∈ st.history ∨
          (p.accepted = max 0 (a - st.lastAccepted) ∧
           p.submitted = max 0 (s - st.lastSubmitted))) ∧
      (st.history = [] →
        ∀ p ∈ (shareStep st (some a) (some s) now).history,
          0 < p.submitted)) := by
  constructor
  · exact runShare_nonneg_aux inputs shareInit (by simp [shareInit])
  · intro st a s now
    constructor
    · intro p hp
      revert hp
      unfold shareStep
      dsimp only
      split
      · exact fun hp => Or.inl hp
      · split
        · intro hp
          rcases mem_appendCapped hp with h1 | h1
          · exact Or.inl h1
          · subst h1
            exact Or.inr ⟨rfl, rfl⟩
        · exact fun hp => Or.inl hp
    · intro hempty p hp
      revert hp
      unfold shareStep
      dsimp only
      split
      · rw [hempty]; intro hp; exact absurd hp (List.not_mem_nil p)
      · split
        · rename_i hguard
          intro hp
          have hlen : st.history.length = 0 := by rw [hempty]; rfl
          have hsub : 0 < max 0 (s - st.lastSubmitted) := by
            rcases hguard with hg | hg
            · omega
            · exact hg
          rcases mem_appendCapped hp with h1 | h1
          · rw [hempty] at h1; exact absurd h1 (List.not_mem_nil p)
          · subst h1; exact hsub
        · rw [hempty]; intro hp; exact absurd hp (List.not_mem_nil p)

/-- Witness for C9: the first sample `(accepted, submitted) = (5, 3)` at
`t = 6000` records the point `(6000, 5, 3)`, whose fields are non-negative. -/
theorem share_history_deltas_witness :
    0 ≤ (⟨6000, 5, 3⟩ : ShareDataPoint).accepted ∧
    0 ≤ (⟨6000, 5, 3⟩ : ShareDataPoint).submitted :=
  (share_history_deltas [(some 5, some 3, 6000)]).1 ⟨6000, 5, 3⟩ (by decide)

/-! ### Loading persisted UI preferences (C10) -/

/-- The persisted UI preference record (`UiConfig`). -/
structure UiConfig where
  secondary : Option String
  customLogo : Option String
deriving DecidableEq, Repr

/-- Default `DEFAULT_CONFIG`: both fields `undefined`. -/
def DEFAULT_CONFIG : UiConfig := ⟨none, none⟩

/-- The result of `JSON.parse(raw) as Partial<UiConfig>`: each field possibly
absent. -/
structure ParsedUiConfig where
  secondary : Option String
  customLogo : Option String
deriving DecidableEq, Repr

/-- JS `parsed.field || undefined`: an absent or empty-string field becomes
`undefined`. -/
def normalizeField (x : Option String) : Option String :=
  match x with
  | none => none
  | some s => if s = "" then none else some s

/-- Loader `loadConfig` from `useUiConfig.ts`, with the stored entry abstracted as
`raw : Option String` and `JSON.parse` as a function returning `none` when it
throws. `if (!raw)` catches both the absent entry and the empty string; a
parse failure is caught and mapped to `DEFAULT_CONFIG`. -/
def loadConfig (raw : Option String)
    (parse : String → Option ParsedUiConfig) : UiConfig :=
  match raw with
  | none => DEFAULT_CONFIG
  | some str =>
    if str = "" then DEFAULT_CONFIG
    else
      match parse str with
      | none => DEFAULT_CONFIG
      | some parsed =>
          ⟨normalizeField parsed.secondary, normalizeField parsed.customLogo⟩

/-- C10: `loadConfig` never fails — it is total over every storage content;
absent, empty or malformed content yields exactly `DEFAULT_CONFIG`, and on
valid content falsy (empty-string) stored fields are normalized to
`undefined`, so a loaded field is never the empty string. -/
theorem loadConfig_total_defaults (parse : String → Option ParsedUiConfig)
    (str : String) (parsed : ParsedUiConfig) :
    loadConfig none parse = DEFAULT_CONFIG ∧
    loadConfig (some "") parse = DEFAULT_CONFIG ∧
    (parse str = none → loadConfig (some str) parse = DEFAULT_CONFIG) ∧
    (parse str = some parsed → str ≠ "" →
      loadConfig (some str) parse =
        ⟨normalizeField parsed.secondary, normalizeField parsed.customLogo⟩ ∧
      (parsed.secondary = some "" → (loadConfig (some str) parse).secondary = none) ∧
      (parsed.customLogo = some "" → (loadConfig (some str) parse).customLogo = none) ∧
      (loadConfig (some str) parse).secondary ≠ some "" ∧
      (loadConfig (some str) parse).customLogo ≠ some "") := by
  have hnorm : ∀ x : Option String, normalizeField x ≠ some "" := by
    intro x
    cases x with
    | none => simp [normalizeField]
    | some v =>
      by_cases hv : v = ""
      · simp [normalizeField, hv]
      · simp [normalizeField, hv]
  refine ⟨rfl, rfl, fun hp => ?_, fun hp hs => ?_⟩
  · show (if str = "" then DEFAULT_CONFIG
      else match parse str with
        | none => DEFAULT_CONFIG
        | some parsed =>
            (⟨normalizeField parsed.secondary,
              normalizeField parsed.customLogo⟩ : UiConfig)) = DEFAULT_CONFIG
    by_cases h : str = ""
    · rw [if_pos h]
    · rw [if_neg h, hp]
  · have hload : loadConfig (some str) parse =
        ⟨normalizeField parsed.secondary, normalizeField parsed.customLogo⟩ := by
      show (if str = "" then DEFAULT_CONFIG
        else match parse str with
          | none => DEFAULT_CONFIG
          | some parsed =>
              (⟨normalizeField parsed.secondary,
                normalizeField parsed.customLogo⟩ : UiConfig)) = _
      rw [if_neg hs, hp]
    refine ⟨hload, fun he => ?_, fun he => ?_, ?_, ?_⟩
    · rw [hload]; show normalizeField parsed.secondary = none
      rw [he]; rfl
    · rw [hload]; show normalizeField parsed.customLogo = none
      rw [he]; rfl
    · rw [hload]; exact hnorm parsed.secondary
    · rw [hload]; exact hnorm parsed.customLogo

/-- Witness for C10 at a concrete parse with an empty-string stored field. -/
theorem loadConfig_total_defaults_witness :
    loadConfig (some "x") (fun _ => some ⟨some "", some "logo"⟩) =
      ⟨normalizeField (some ""), normalizeField (some "logo")⟩ ∧
    loadConfig (some "x") (fun _ => some ⟨some "", some "logo"⟩) =
      ⟨none, some "logo"⟩ :=
  ⟨((loadConfig_total_defaults (fun _ => some ⟨some "", some "logo"⟩) "x"
      ⟨some "", some "logo"⟩).2.2.2 rfl (by decide)).1,
   by
    rw [((loadConfig_total_defaults (fun _ => some ⟨some "", some "logo"⟩) "x"
      ⟨some "", some "logo"⟩).2.2.2 rfl (by decide)).1]
    rfl⟩

end Sv2Ui
